import Mathlib

set_option maxHeartbeats 1000000

/-!
Shallow embedding of `src/app.py` (ChrisAtMarmot/archive-tools-web), a Flask
application that builds a speaker-attributed WebVTT subtitle track from
transcription segments and diarization turns and lets the user rename the
anonymous speaker placeholders afterwards.

Modelling conventions:
* Python floats holding times are modelled as exact rationals (`ℚ`).
  Rational arithmetic is written with the executable helpers `qAdd`, `qSub`,
  `qMul`, `qDiv`, `intToQ` below; each is proved equal to the corresponding
  `ℚ` field operation (`qAdd_eq` etc.), so the definitions compute by kernel
  reduction while the theorems can use ordinary arithmetic.
* Python strings are Lean `String`s; Python dicts (which preserve insertion
  order) are association lists `List (String × α)` looked up with `alookup`
  and extended by appending.
* `%`-formatting, `str.replace`, `"\n".join` and `str.strip` are modelled by
  the executable functions `intFmt2`, `floatFmt063`, `strReplace`, `pyJoin`
  and `pyStrip` defined next to the source lines they translate.
-/

/-! ### Executable rational arithmetic -/

/-- Executable embedding of an integer into `ℚ`. -/
def intToQ (n : ℤ) : ℚ := Rat.divInt n 1

/-- Executable addition on `ℚ` (equal to `a + b`, see `qAdd_eq`). -/
def qAdd (a b : ℚ) : ℚ := Rat.divInt (a.num * b.den + b.num * a.den) (a.den * b.den)

/-- Executable subtraction on `ℚ` (equal to `a - b`, see `qSub_eq`). -/
def qSub (a b : ℚ) : ℚ := Rat.divInt (a.num * b.den - b.num * a.den) (a.den * b.den)

/-- Executable multiplication on `ℚ` (equal to `a * b`, see `qMul_eq`). -/
def qMul (a b : ℚ) : ℚ := Rat.divInt (a.num * b.num) (a.den * b.den)

/-- Executable division on `ℚ` (equal to `a / b`, see `qDiv_eq`). -/
def qDiv (a b : ℚ) : ℚ := Rat.divInt (a.num * b.den) (a.den * b.num)

theorem intToQ_eq (n : ℤ) : intToQ n = (n : ℚ) := by
  simp [intToQ, Rat.divInt_one]

theorem qAdd_eq (a b : ℚ) : qAdd a b = a + b := by
  rw [qAdd, Rat.divInt_eq_div]
  have ha : ((a.den : ℕ) : ℚ) ≠ 0 := (Nat.cast_ne_zero (R := ℚ)).mpr (Rat.den_ne_zero a)
  have hb : ((b.den : ℕ) : ℚ) ≠ 0 := (Nat.cast_ne_zero (R := ℚ)).mpr (Rat.den_ne_zero b)
  conv_rhs => rw [← Rat.num_div_den a, ← Rat.num_div_den b]
  push_cast
  field_simp

theorem qSub_eq (a b : ℚ) : qSub a b = a - b := by
  rw [qSub, Rat.divInt_eq_div]
  have ha : ((a.den : ℕ) : ℚ) ≠ 0 := (Nat.cast_ne_zero (R := ℚ)).mpr (Rat.den_ne_zero a)
  have hb : ((b.den : ℕ) : ℚ) ≠ 0 := (Nat.cast_ne_zero (R := ℚ)).mpr (Rat.den_ne_zero b)
  conv_rhs => rw [← Rat.num_div_den a, ← Rat.num_div_den b]
  push_cast
  field_simp
  ring

theorem qMul_eq (a b : ℚ) : qMul a b = a * b := by
  rw [qMul, Rat.divInt_eq_div]
  have ha : ((a.den : ℕ) : ℚ) ≠ 0 := (Nat.cast_ne_zero (R := ℚ)).mpr (Rat.den_ne_zero a)
  have hb : ((b.den : ℕ) : ℚ) ≠ 0 := (Nat.cast_ne_zero (R := ℚ)).mpr (Rat.den_ne_zero b)
  conv_rhs => rw [← Rat.num_div_den a, ← Rat.num_div_den b]
  push_cast
  field_simp

theorem qDiv_eq (a b : ℚ) : qDiv a b = a / b := by
  rcases eq_or_ne b 0 with rfl | hb0
  · simp [qDiv]
  · rw [qDiv, Rat.divInt_eq_div]
    have ha : ((a.den : ℕ) : ℚ) ≠ 0 := (Nat.cast_ne_zero (R := ℚ)).mpr (Rat.den_ne_zero a)
    have hbd : ((b.den : ℕ) : ℚ) ≠ 0 := (Nat.cast_ne_zero (R := ℚ)).mpr (Rat.den_ne_zero b)
    have hbn : ((b.num : ℤ) : ℚ) ≠ 0 := by
      exact_mod_cast (Rat.num_ne_zero).mpr hb0
    conv_rhs => rw [← Rat.num_div_den a, ← Rat.num_div_den b]
    push_cast
    field_simp

theorem ratFloor_eq (q : ℚ) : (Rat.floor q : ℤ) = ⌊q⌋ := by
  rw [Rat.floor_def', Rat.floor_def]

/-! ### Decimal rendering of numbers (Python `format`) -/

/-- Decimal digit character, as produced by Python integer formatting. -/
def digitChar (d : ℕ) : Char :=
  if d = 0 then '0' else if d = 1 then '1' else if d = 2 then '2' else if d = 3 then '3'
  else if d = 4 then '4' else if d = 5 then '5' else if d = 6 then '6' else if d = 7 then '7'
  else if d = 8 then '8' else if d = 9 then '9' else '*'

/-- Decimal digits of `n`, least significant first; the first argument is
recursion fuel (always called with fuel `> n`, see `digitsAux_fuel`). -/
def digitsAux : ℕ → ℕ → List Char
  | 0, _ => []
  | fuel + 1, n => if n < 10 then [digitChar n] else digitChar (n % 10) :: digitsAux fuel (n / 10)

/-- Decimal digits of `n`, most significant first (Python `str(n)`). -/
def natStr (n : ℕ) : List Char := (digitsAux (n + 1) n).reverse

/-- Zero-pad `ds` on the left to width `w` (Python `{:0wd}` style padding). -/
def padZero (w : ℕ) (ds : List Char) : List Char :=
  List.replicate (w - ds.length) '0' ++ ds

/-- Python `f"{n:02d}"` for an integer `n` (sign counts toward the width). -/
def intFmt2 (n : ℤ) : String :=
  if n < 0 then "-" ++ String.mk (padZero 1 (natStr n.natAbs))
  else String.mk (padZero 2 (natStr n.toNat))

/-- Python float modulo: `a % b = a - b * (a // b)` (result has the sign of
`b`; for the positive divisors used here it lies in `[0, b)`). -/
def pyMod (a b : ℚ) : ℚ := qSub a (qMul b (intToQ (Rat.floor (qDiv a b))))

/-- Round half to even, the rounding used when Python formats a float with a
fixed number of decimals. -/
def rhe (q : ℚ) : ℤ :=
  let n := Rat.floor q
  let f := qSub q (intToQ n)
  if f < Rat.divInt 1 2 then n
  else if Rat.divInt 1 2 < f then n + 1
  else if n % 2 = 0 then n else n + 1

/-- Python `f"{q:06.3f}"` for the nonnegative values this program formats
(the argument is always a remainder modulo a positive number). -/
def floatFmt063 (q : ℚ) : String :=
  let m : ℕ := (rhe (qMul q 1000)).toNat
  String.mk (padZero 2 (natStr (m / 1000))) ++ "." ++ String.mk (padZero 3 (natStr (m % 1000)))

/-- Lines 19-24 of `src/app.py`:
`format_timestamp(seconds)` returns `f"{hours:02d}:{minutes:02d}:{secs:06.3f}"`
with `hours = int(seconds // 3600)`, `minutes = int((seconds % 3600) // 60)`,
`secs = seconds % 60` (for the nonnegative quotients produced here, `int` of
a floor division is the floor itself). -/
def format_timestamp (seconds : ℚ) : String :=
  let hours : ℤ := Rat.floor (qDiv seconds 3600)
  let minutes : ℤ := Rat.floor (qDiv (pyMod seconds 3600) 60)
  let secs : ℚ := pyMod seconds 60
  intFmt2 hours ++ ":" ++ intFmt2 minutes ++ ":" ++ floatFmt063 secs


/-! ### Strings: Python `strip`, `join`, association-list dicts -/

/-- Python `str.strip()`: remove leading and trailing whitespace. -/
def pyStrip (s : String) : String :=
  String.mk (((s.data.dropWhile Char.isWhitespace).reverse.dropWhile Char.isWhitespace).reverse)

/-- Python `sep.join(lines)`: empty for `[]`, otherwise the first element
followed by `sep ++ line` for every further line (no trailing separator). -/
def pyJoin (sep : String) : List String → String
  | [] => ""
  | x :: xs => xs.foldl (fun acc y => acc ++ sep ++ y) x

/-- Lookup in a Python dict modelled as an insertion-ordered association
list (first match wins; the program never inserts a key twice). -/
def alookup {α : Type} (k : String) : List (String × α) → Option α
  | [] => none
  | (k', v) :: rest => if k' = k then some v else alookup k rest

/-! ### Diarization turns and segments -/

/-- One diarization turn as yielded by `diarization.itertracks(yield_label=True)`:
a time span and its speaker label. -/
structure Turn where
  start : ℚ
  stop : ℚ
  speaker : String

/-- One Whisper transcription segment: `segment["start"]`, `segment["end"]`,
`segment["text"]`. -/
structure Segment where
  start : ℚ
  stop : ℚ
  text : String

/-- Lines 26-34 of `src/app.py`: `get_speaker_for_segment(diarization, start, end)`
computes `mid_time = (start + end) / 2`, returns `"Unknown"` when diarization
is `None`, otherwise the speaker of the first turn with
`turn.start <= mid_time <= turn.end`, and `"Unknown"` when no turn matches.
`diarization = some turns` models a diarization object whose `itertracks`
enumerates `turns` in order. -/
def get_speaker_for_segment (diarization : Option (List Turn)) (start stop : ℚ) : String :=
  let mid_time := qDiv (qAdd start stop) 2
  match diarization with
  | none => "Unknown"
  | some turns =>
    match turns.find? (fun t => decide (t.start ≤ mid_time) && decide (mid_time ≤ t.stop)) with
    | some t => t.speaker
    | none => "Unknown"

/-! ### Placeholder allocation and the VTT build loop (lines 95-112) -/

/-- The placeholder label `f"SPEAKER_{counter:02d}"` (line 105). -/
def placeholderStr (counter : ℕ) : String :=
  "SPEAKER_" ++ String.mk (padZero 2 (natStr counter))

/-- Lines 104-107 of `src/app.py`: if `orig_speaker` is not yet in
`placeholder_map`, bind it to `f"SPEAKER_{counter:02d}"` and bump the counter;
then return `placeholder_map[orig_speaker]` together with the updated state. -/
def allocOne (m : List (String × String)) (c : ℕ) (k : String) :
    String × List (String × String) × ℕ :=
  match alookup k m with
  | some p => (p, m, c)
  | none => (placeholderStr c, m ++ [(k, placeholderStr c)], c + 1)

/-- The `for segment in segments` loop of lines 98-110: per segment, format
the two timestamps, strip the text, resolve the speaker, allocate or reuse
its placeholder, and append the three cue lines to `vtt_lines`. -/
def build_vtt_loop (diarization : Option (List Turn)) :
    List Segment → List String → List (String × String) → ℕ →
      List String × List (String × String) × ℕ
  | [], lines, m, c => (lines, m, c)
  | seg :: rest, lines, m, c =>
    let start_ts := format_timestamp seg.start
    let end_ts := format_timestamp seg.stop
    let text := pyStrip seg.text
    let orig_speaker := get_speaker_for_segment diarization seg.start seg.stop
    let r := allocOne m c orig_speaker
    build_vtt_loop diarization rest
      (lines ++ [start_ts ++ " --> " ++ end_ts, "[" ++ r.1 ++ "] " ++ text, ""]) r.2.1 r.2.2

/-- Lines 95-112 of `src/app.py`: `vtt_lines = ["WEBVTT", ""]`, the segment
loop, then `vtt_content = "\n".join(vtt_lines)`. -/
def index_vtt (diarization : Option (List Turn)) (segments : List Segment) : String :=
  pyJoin "\n" (build_vtt_loop diarization segments ["WEBVTT", ""] [] 1).1


/-! ### Python `str.replace` -/

/-- Boolean test that `p` is an initial run of `s`. -/
def startsWith : List Char → List Char → Bool
  | [], _ => true
  | _ :: _, [] => false
  | a :: as, b :: bs => a == b && startsWith as bs

/-- Scan `s` left to right; on each match of `pat` emit `repl` and continue
after the matched run (Python `str.replace`: all non-overlapping occurrences).
The first argument is recursion fuel, always called with fuel `≥` the length
of `s` (see `replaceAux_fuel`).  The patterns used by this program are always
nonempty (they start with `[`), so the `pat = []` guard never fires. -/
def replaceAux (pat repl : List Char) : ℕ → List Char → List Char
  | 0, s => s
  | _ + 1, [] => []
  | fuel + 1, c :: rest =>
    if startsWith pat (c :: rest) && !(pat.isEmpty) then
      repl ++ replaceAux pat repl fuel (List.drop pat.length (c :: rest))
    else
      c :: replaceAux pat repl fuel rest

/-- Python `s.replace(pat, repl)` on character lists. -/
def replaceList (pat repl s : List Char) : List Char := replaceAux pat repl s.length s

/-- Python `s.replace(pat, repl)`. -/
def strReplace (s pat repl : String) : String := String.mk (replaceList pat.data repl.data s.data)

/-- Boolean occurrence test: does `pat` occur contiguously inside `s`? -/
def occursList (pat : List Char) : List Char → Bool
  | [] => pat.isEmpty
  | s@(_ :: rest) => startsWith pat s || occursList pat rest

/-- Does the string `pat` occur contiguously inside `s`? -/
def occursIn (pat s : String) : Bool := occursList pat.data s.data

/-! ### Jobs, rename, download (lines 115-180) -/

/-- One entry of `generated_files`: the per-job dict created at lines 120-125
with keys `vtt`, `transcript`, `video_path`, `placeholder_map`. -/
structure Job where
  vtt : String
  transcript : String
  video_path : String
  placeholder_map : List (String × String)
deriving DecidableEq

/-- Lines 167-170 of `src/app.py`: from the submitted form pairs build
`new_mapping`, keeping the key itself when the stripped value is empty.
`request.form.items()` yields one value per distinct key, in form order. -/
def new_mapping (form : List (String × String)) : List (String × String) :=
  form.map (fun kv => (kv.1, if pyStrip kv.2 = "" then kv.1 else pyStrip kv.2))

/-- Lines 173-176 of `src/app.py`: fold over the mapping in its insertion
order, replacing every occurrence of `"[" + placeholder + "]"` with
`"[" + new_name + "]"`. -/
def apply_mapping (vtt : String) (mapping : List (String × String)) : String :=
  mapping.foldl (fun acc pn => strReplace acc ("[" ++ pn.1 ++ "]") ("[" ++ pn.2 ++ "]")) vtt

/-- Result of the `/update_speakers/<uid>` route: 404 or the mutated store. -/
inductive UpdateResult where
  | notFound
  | ok (store : List (String × Job))
deriving DecidableEq

/-- Lines 161-180 of `src/app.py`: `update_speakers(uid)` returns 404 when
`uid` is unknown, otherwise replaces each bracketed placeholder of the form
data in the job's `vtt` and stores the result back. -/
def update_speakers (store : List (String × Job)) (uid : String)
    (form : List (String × String)) : UpdateResult :=
  match alookup uid store with
  | none => .notFound
  | some job =>
    .ok (store.map (fun e =>
      if e.1 = uid then (e.1, { e.2 with vtt := apply_mapping job.vtt (new_mapping form) })
      else e))

/-- Result of the `/download/<uid>` route: 404, a file response, or the
server error Flask produces when `content.encode` is called on a non-string
(the `placeholder_map` entry is a dict). -/
inductive DownloadResult where
  | notFound
  | file (downloadName mimetype content : String)
  | serverError
deriving DecidableEq

/-- Lines 139-159 of `src/app.py`: `download(uid)` 404s when `uid` is unknown
or `type` is not a key of the per-job dict; `vtt` and `transcript` download as
subtitles/transcript; `video_path` falls into the generic `else` branch and is
served as `file.txt`; `placeholder_map` reaches `content.encode("utf-8")` with
a dict and raises (an internal server error, not a 404). -/
def download (store : List (String × Job)) (uid : String) (file_type : Option String) :
    DownloadResult :=
  match alookup uid store with
  | none => .notFound
  | some job =>
    if file_type = some "vtt" then .file "subtitles.vtt" "text/vtt" job.vtt
    else if file_type = some "transcript" then .file "transcript.txt" "text/plain" job.transcript
    else if file_type = some "video_path" then .file "file.txt" "text/plain" job.video_path
    else if file_type = some "placeholder_map" then .serverError
    else .notFound


/-! ### The upload route `index` (lines 36-130) -/

/-- Numeric value of a list of decimal digit characters. -/
def digitsToNat (cs : List Char) : ℕ := cs.foldl (fun a c => a * 10 + (c.toNat - 48)) 0

/-- The numeric part of a placeholder label: the value of its trailing digit
run (`int(x.split('_')[1])` at line 128 for labels of the shape `SPEAKER_NN`). -/
def numOf (s : String) : ℕ := digitsToNat (s.data.reverse.takeWhile Char.isDigit).reverse

/-- Stable insertion of `x` into a list sorted by `le`. -/
def insortBy {α : Type} (le : α → α → Bool) (x : α) : List α → List α
  | [] => [x]
  | y :: ys => if le x y then x :: y :: ys else y :: insortBy le x ys

/-- Stable insertion sort by `le`. -/
def sortBy {α : Type} (le : α → α → Bool) : List α → List α
  | [] => []
  | x :: xs => insortBy le x (sortBy le xs)

/-- Line 128 of `src/app.py`: the placeholder labels sorted by their numeric
part, for the edit page. -/
def sortedPlaceholders (m : List (String × String)) : List String :=
  sortBy (fun a b => Nat.ble (numOf a) (numOf b)) (m.map Prod.snd)

/-- Outcome of a POST to `/`: an error page, an uncaught exception (Flask
turns it into a 500 response), or the edit page after the job is stored. -/
inductive IndexResult where
  | errorPage (msg : String)
  | raised (msg : String)
  | editPage (uid : String) (store : List (String × Job)) (placeholders : List String)
deriving DecidableEq

/-- Lines 38-129 of `src/app.py`, the POST branch of `index`, with the
external collaborators abstracted into inputs: `hasFilePart` is
`"video" in request.files`; `filenameEmpty` is `file.filename == ""`;
`ffmpegOk` is whether the ffmpeg extraction succeeds; `token` is
`os.getenv("HUGGINGFACE_TOKEN")` (`if not HUGGINGFACE_TOKEN: raise ValueError`
fires on `None` and on the empty string, after the upload was saved and
transcoded); `diarization` is the pyannote result, `none` when the `try`
block fails; `transcript`/`segments` are the Whisper result; `uid` is the
generated `uuid4` and `video_path` the saved upload's path. -/
def index_post (store : List (String × Job)) (hasFilePart : Bool) (filenameEmpty : Bool)
    (ffmpegOk : Bool) (token : Option String) (diarization : Option (List Turn))
    (transcript : String) (segments : List Segment) (uid : String) (video_path : String) :
    IndexResult :=
  if !hasFilePart then .errorPage "No file part in the request."
  else if filenameEmpty then .errorPage "No file selected."
  else if !ffmpegOk then .errorPage "Error processing the video file. Please ensure it is a valid video."
  else if token.getD "" = "" then .raised "Hugging Face token not found!"
  else
    let r := build_vtt_loop diarization segments ["WEBVTT", ""] [] 1
    let job : Job := ⟨pyJoin "\n" r.1, transcript, video_path, r.2.1⟩
    .editPage uid (store ++ [(uid, job)]) (sortedPlaceholders r.2.1)

/-- Follows the spec's words (§4.6), for comparison with `apply_mapping`:
"Order of pair application is unspecified but must be deterministic per call
(apply in placeholder-numeric order)" — the same replacement fold, but with
the pairs first sorted by the numeric part of the placeholder. -/
def apply_mapping_numeric (vtt : String) (mapping : List (String × String)) : String :=
  apply_mapping vtt (sortBy (fun a b => Nat.ble (numOf a.1) (numOf b.1)) mapping)


/-! ### Arithmetic lemmas -/

theorem pyMod_eq (a b : ℚ) : pyMod a b = a - b * (⌊a / b⌋ : ℤ) := by
  rw [pyMod, qSub_eq, qMul_eq, intToQ_eq, qDiv_eq, ratFloor_eq]

theorem pyMod_nonneg (a b : ℚ) (hb : 0 < b) : 0 ≤ pyMod a b := by
  rw [pyMod_eq]
  have h1 : ((⌊a / b⌋ : ℤ) : ℚ) ≤ a / b := Int.floor_le _
  have h2 : b * ((⌊a / b⌋ : ℤ) : ℚ) ≤ b * (a / b) := by
    exact mul_le_mul_of_nonneg_left h1 hb.le
  have h3 : b * (a / b) = a := by
    rw [mul_comm, div_mul_cancel₀ _ hb.ne']
  linarith

theorem pyMod_lt (a b : ℚ) (hb : 0 < b) : pyMod a b < b := by
  rw [pyMod_eq]
  have h1 : a / b < (⌊a / b⌋ : ℤ) + 1 := Int.lt_floor_add_one _
  have h2 : a < ((⌊a / b⌋ : ℤ) + 1) * b := (div_lt_iff₀ hb).mp h1
  have h3 : ((⌊a / b⌋ : ℤ) + 1) * b = b * (⌊a / b⌋ : ℤ) + b := by ring
  linarith

theorem rhe_bounds (q : ℚ) : ⌊q⌋ ≤ rhe q ∧ rhe q ≤ ⌊q⌋ + 1 := by
  have h : rhe q = if qSub q (intToQ (Rat.floor q)) < Rat.divInt 1 2 then Rat.floor q
      else if Rat.divInt 1 2 < qSub q (intToQ (Rat.floor q)) then Rat.floor q + 1
      else if Rat.floor q % 2 = 0 then Rat.floor q else Rat.floor q + 1 := rfl
  rw [h, ratFloor_eq]
  split_ifs <;> omega

/-! ### String lemmas -/

theorem strData_append (a b : String) : (a ++ b).data = a.data ++ b.data := rfl

theorem strLength_data (s : String) : s.length = s.data.length := rfl

theorem strAppend_assoc (a b c : String) : a ++ b ++ c = a ++ (b ++ c) := by
  cases a; cases b; cases c
  exact congrArg String.mk (List.append_assoc _ _ _)

theorem strAppend_empty (s : String) : s ++ "" = s := by
  cases s; exact congrArg String.mk (List.append_nil _)

theorem strEmpty_append (s : String) : "" ++ s = s := by
  cases s; rfl

theorem strLength_append (a b : String) : (a ++ b).length = a.length + b.length := by
  rw [strLength_data, strLength_data, strLength_data, strData_append, List.length_append]

/-! ### Digit-string lemmas -/

theorem digitsAux_fuel : ∀ n f g, n < f → n < g → digitsAux f n = digitsAux g n := by
  intro n
  induction n using Nat.strong_induction_on with
  | _ n ih =>
    intro f g hf hg
    match f, g with
    | f' + 1, g' + 1 =>
      by_cases h10 : n < 10
      · simp [digitsAux, h10]
      · have hn10 : n / 10 < n := Nat.div_lt_self (by omega) (by omega)
        simp only [digitsAux, if_neg h10]
        rw [ih (n / 10) hn10 f' g' (by omega) (by omega)]

/-- Value of a digit list, least significant digit first. -/
def dval : List Char → ℕ
  | [] => 0
  | c :: cs => (c.toNat - 48) + 10 * dval cs

theorem digitChar_val : ∀ d, d < 10 → (digitChar d).toNat - 48 = d := by decide

theorem dval_digitsAux : ∀ n f, n < f → dval (digitsAux f n) = n := by
  intro n
  induction n using Nat.strong_induction_on with
  | _ n ih =>
    intro f hf
    match f with
    | f' + 1 =>
      by_cases h10 : n < 10
      · simp [digitsAux, h10, dval, digitChar_val n h10]
      · have hn10 : n / 10 < n := Nat.div_lt_self (by omega) (by omega)
        simp only [digitsAux, if_neg h10, dval]
        rw [ih (n / 10) hn10 f' (by omega), digitChar_val (n % 10) (Nat.mod_lt _ (by omega))]
        omega

theorem natStr_inj : ∀ n m, natStr n = natStr m → n = m := by
  intro n m h
  have h' : digitsAux (n + 1) n = digitsAux (m + 1) m := by
    have := congrArg List.reverse h
    simpa [natStr] using this
  have := congrArg dval h'
  rwa [dval_digitsAux n (n + 1) (Nat.lt_succ_self n),
    dval_digitsAux m (m + 1) (Nat.lt_succ_self m)] at this

theorem digitChar_isDigit : ∀ d, d < 10 → (digitChar d).isDigit = true := by decide

theorem digitsAux_digits : ∀ n f, n < f → ∀ c ∈ digitsAux f n, c.isDigit = true := by
  intro n
  induction n using Nat.strong_induction_on with
  | _ n ih =>
    intro f hf c hc
    match f with
    | f' + 1 =>
      by_cases h10 : n < 10
      · simp [digitsAux, h10] at hc
        subst hc; exact digitChar_isDigit n h10
      · have hn10 : n / 10 < n := Nat.div_lt_self (by omega) (by omega)
        simp only [digitsAux, if_neg h10, List.mem_cons] at hc
        rcases hc with rfl | hc
        · exact digitChar_isDigit (n % 10) (Nat.mod_lt _ (by omega))
        · exact ih (n / 10) hn10 f' (by omega) c hc

theorem natStr_digits (n : ℕ) : ∀ c ∈ natStr n, c.isDigit = true := by
  intro c hc
  rw [natStr, List.mem_reverse] at hc
  exact digitsAux_digits n (n + 1) (Nat.lt_succ_self n) c hc

theorem digitsAux_length_le : ∀ k n f, 1 ≤ k → n < f → n < 10 ^ k →
    (digitsAux f n).length ≤ k := by
  intro k
  induction k with
  | zero => omega
  | succ k ihk =>
    intro n f _ hf hn
    match f with
    | f' + 1 =>
      by_cases h10 : n < 10
      · simp [digitsAux, h10]
      · have hn10 : n / 10 < n := Nat.div_lt_self (by omega) (by omega)
        have hk1 : 1 ≤ k := by
          by_contra hk
          have hk0 : k = 0 := by omega
          subst hk0
          simp at hn
          omega
        simp only [digitsAux, if_neg h10, List.length_cons]
        have hdiv : n / 10 < 10 ^ k := by
          rw [Nat.div_lt_iff_lt_mul (by norm_num)]
          rw [Nat.pow_succ] at hn
          omega
        exact Nat.succ_le_succ (ihk (n / 10) f' hk1 (by omega) hdiv)

theorem natStr_length_le (k n : ℕ) (hk : 1 ≤ k) (hn : n < 10 ^ k) : (natStr n).length ≤ k := by
  rw [natStr, List.length_reverse]
  exact digitsAux_length_le k n (n + 1) hk (Nat.lt_succ_self n) hn

theorem digitsAux_length_pos : ∀ n f, n < f → 1 ≤ (digitsAux f n).length := by
  intro n f hf
  match f with
  | f' + 1 =>
    by_cases h10 : n < 10
    · simp [digitsAux, h10]
    · simp [digitsAux, h10]

theorem natStr_length_pos (n : ℕ) : 1 ≤ (natStr n).length := by
  rw [natStr, List.length_reverse]
  exact digitsAux_length_pos n (n + 1) (Nat.lt_succ_self n)

theorem padZero_length (w : ℕ) (ds : List Char) : (padZero w ds).length = max w ds.length := by
  rw [padZero, List.length_append, List.length_replicate]
  omega

theorem padZero_mem (w : ℕ) (ds : List Char) :
    ∀ c ∈ padZero w ds, c = '0' ∨ c ∈ ds := by
  intro c hc
  rw [padZero, List.mem_append] at hc
  rcases hc with hc | hc
  · exact Or.inl (List.eq_of_mem_replicate hc)
  · exact Or.inr hc

theorem dval_append_zeros : ∀ (xs : List Char) (j : ℕ),
    dval (xs ++ List.replicate j '0') = dval xs := by
  intro xs
  induction xs with
  | nil =>
    intro j
    induction j with
    | zero => rfl
    | succ j ihj => simpa [List.replicate_succ, dval] using ihj
  | cons c cs ih =>
    intro j
    simp [dval, ih j]

theorem padZero_natStr_inj (w n m : ℕ)
    (h : padZero w (natStr n) = padZero w (natStr m)) : n = m := by
  have hrev := congrArg List.reverse h
  rw [padZero, padZero, List.reverse_append, List.reverse_append,
    List.reverse_replicate, List.reverse_replicate, natStr, natStr,
    List.reverse_reverse, List.reverse_reverse] at hrev
  have hd := congrArg dval hrev
  rw [dval_append_zeros, dval_append_zeros,
    dval_digitsAux n (n + 1) (Nat.lt_succ_self n),
    dval_digitsAux m (m + 1) (Nat.lt_succ_self m)] at hd
  exact hd

/-! ### Width lemmas for the formatted fields -/

theorem intFmt2_of_nonneg (n : ℤ) (h : 0 ≤ n) :
    intFmt2 n = String.mk (padZero 2 (natStr n.toNat)) := by
  rw [intFmt2, if_neg (by omega)]

theorem strMk_length (l : List Char) : (String.mk l).length = l.length := rfl

theorem intFmt2_length_ge (n : ℤ) (h : 0 ≤ n) : 2 ≤ (intFmt2 n).length := by
  rw [intFmt2_of_nonneg n h, strMk_length, padZero_length]
  omega

theorem intFmt2_length_eq (n : ℤ) (h : 0 ≤ n) (h2 : n < 100) : (intFmt2 n).length = 2 := by
  rw [intFmt2_of_nonneg n h, strMk_length, padZero_length]
  have := natStr_length_le 2 n.toNat (by omega) (by omega)
  omega

theorem floatFmt063_length (q : ℚ) (h0 : 0 ≤ q) (h : q < 60) :
    (floatFmt063 q).length = 6 := by
  have hq1000 : qMul q 1000 = q * 1000 := qMul_eq q 1000
  have hfl : (0:ℤ) ≤ ⌊q * 1000⌋ := Int.floor_nonneg.mpr (by positivity)
  have hfu : ⌊q * 1000⌋ < 60000 := by
    rw [Int.floor_lt]
    push_cast
    nlinarith
  have hb := rhe_bounds (q * 1000)
  have hm0 : 0 ≤ rhe (q * 1000) := by omega
  have hm : (rhe (q * 1000)).toNat ≤ 60000 := by omega
  rw [floatFmt063, hq1000]
  simp only [strLength_append, strMk_length, padZero_length]
  have h1 : (natStr ((rhe (q * 1000)).toNat / 1000)).length ≤ 2 :=
    natStr_length_le 2 _ (by omega) (by omega)
  have h2 : (natStr ((rhe (q * 1000)).toNat % 1000)).length ≤ 3 :=
    natStr_length_le 3 _ (by omega) (by omega)
  have h3 : ("." : String).length = 1 := rfl
  have h4 : (("." : String).data).length = 1 := rfl
  omega

/-- C5: for every nonnegative number of seconds, `format_timestamp` renders
`HH:MM:SS.mmm` with hours `⌊s/3600⌋` (truncation toward zero, since the
quotient is nonnegative), minutes `⌊(s mod 3600)/60⌋` in `[0,60)` zero-padded
to exactly 2 digits, the seconds-plus-milliseconds field the natural
remainder `s mod 60`, which always lies in `[0,60)`, rendered zero-padded to
width 6 (2-digit seconds, 3-digit milliseconds); and exactly,
`format_timestamp 0 = "00:00:00.000"` and
`format_timestamp 3661.25 = "01:01:01.250"`. -/
theorem format_timestamp_spec :
    (∀ s : ℚ, 0 ≤ s →
      format_timestamp s =
        intFmt2 ⌊s / 3600⌋ ++ ":" ++ intFmt2 ⌊pyMod s 3600 / 60⌋ ++ ":" ++
          floatFmt063 (pyMod s 60) ∧
      0 ≤ ⌊s / 3600⌋ ∧
      0 ≤ ⌊pyMod s 3600 / 60⌋ ∧ ⌊pyMod s 3600 / 60⌋ < 60 ∧
      0 ≤ pyMod s 60 ∧ pyMod s 60 < 60 ∧
      2 ≤ (intFmt2 ⌊s / 3600⌋).length ∧
      (intFmt2 ⌊pyMod s 3600 / 60⌋).length = 2 ∧
      (floatFmt063 (pyMod s 60)).length = 6) ∧
    format_timestamp 0 = "00:00:00.000" ∧
    format_timestamp (14645 / 4 : ℚ) = "01:01:01.250" := by
  refine ⟨fun s hs => ?_, by decide, ?_⟩
  · have hhours : (0:ℤ) ≤ ⌊s / 3600⌋ := Int.floor_nonneg.mpr (by positivity)
    have hmod3600_0 : 0 ≤ pyMod s 3600 := pyMod_nonneg s 3600 (by norm_num)
    have hmod3600_lt : pyMod s 3600 < 3600 := pyMod_lt s 3600 (by norm_num)
    have hmin0 : (0:ℤ) ≤ ⌊pyMod s 3600 / 60⌋ := Int.floor_nonneg.mpr (by positivity)
    have hmin60 : ⌊pyMod s 3600 / 60⌋ < 60 := by
      rw [Int.floor_lt]
      rw [div_lt_iff₀ (by norm_num : (0:ℚ) < 60)]
      push_cast
      linarith
    have hsec0 : 0 ≤ pyMod s 60 := pyMod_nonneg s 60 (by norm_num)
    have hsec60 : pyMod s 60 < 60 := pyMod_lt s 60 (by norm_num)
    refine ⟨?_, hhours, hmin0, hmin60, hsec0, hsec60,
      intFmt2_length_ge _ hhours, intFmt2_length_eq _ hmin0 (by omega),
      floatFmt063_length _ hsec0 hsec60⟩
    rw [format_timestamp, qDiv_eq, qDiv_eq, ratFloor_eq, ratFloor_eq]
  · have hval : (14645 / 4 : ℚ) = Rat.divInt 14645 4 := by
      rw [Rat.divInt_eq_div]
      norm_num
    rw [hval]
    decide

/-- Witness for `format_timestamp_spec` at the concrete input `s = 2`. -/
theorem format_timestamp_spec_witness :
    0 ≤ pyMod (2 : ℚ) 60 ∧ pyMod (2 : ℚ) 60 < 60 :=
  ⟨(format_timestamp_spec.1 2 (by norm_num)).2.2.2.2.1,
   (format_timestamp_spec.1 2 (by norm_num)).2.2.2.2.2.1⟩

/-! ### The segment-speaker resolver (C4) -/

theorem find?_speaker_none (turns : List Turn) (mid : ℚ)
    (h : ∀ t ∈ turns, ¬ (t.start ≤ mid ∧ mid ≤ t.stop)) :
    turns.find? (fun t => decide (t.start ≤ mid) && decide (mid ≤ t.stop)) = none := by
  rw [List.find?_eq_none]
  intro t ht
  have h' := h t ht
  simp only [Bool.and_eq_true, decide_eq_true_eq]
  tauto

theorem find?_speaker_found (pre : List Turn) (t : Turn) (post : List Turn) (mid : ℚ)
    (hpre : ∀ u ∈ pre, ¬ (u.start ≤ mid ∧ mid ≤ u.stop))
    (h1 : t.start ≤ mid) (h2 : mid ≤ t.stop) :
    (pre ++ t :: post).find? (fun u => decide (u.start ≤ mid) && decide (mid ≤ u.stop))
      = some t := by
  induction pre with
  | nil =>
    simp only [List.nil_append]
    apply List.find?_cons_of_pos
    simp [h1, h2]
  | cons u pre' ih =>
    simp only [List.cons_append]
    rw [List.find?_cons_of_neg]
    · exact ih (fun v hv => hpre v (List.mem_cons_of_mem u hv))
    · have := hpre u (List.mem_cons_self u pre')
      simp only [Bool.and_eq_true, decide_eq_true_eq]
      tauto

theorem get_speaker_unfold (turns : List Turn) (start stop : ℚ) :
    get_speaker_for_segment (some turns) start stop =
      match turns.find? (fun t =>
          decide (t.start ≤ (start + stop) / 2) && decide ((start + stop) / 2 ≤ t.stop)) with
      | some t => t.speaker
      | none => "Unknown" := by
  rw [get_speaker_for_segment]
  rw [qAdd_eq, qDiv_eq]

/-- C4: with no diarization the resolver returns the unknown sentinel
`"Unknown"`; with diarization it returns the speaker of the first turn whose
closed interval contains the segment midpoint `(start+stop)/2` (both
endpoints inclusive), and `"Unknown"` when no turn contains the midpoint. -/
theorem get_speaker_for_segment_spec :
    (∀ start stop : ℚ, get_speaker_for_segment none start stop = "Unknown") ∧
    (∀ (turns : List Turn) (start stop : ℚ),
      (∀ t ∈ turns, ¬ (t.start ≤ (start + stop) / 2 ∧ (start + stop) / 2 ≤ t.stop)) →
      get_speaker_for_segment (some turns) start stop = "Unknown") ∧
    (∀ (pre : List Turn) (t : Turn) (post : List Turn) (start stop : ℚ),
      (∀ u ∈ pre, ¬ (u.start ≤ (start + stop) / 2 ∧ (start + stop) / 2 ≤ u.stop)) →
      t.start ≤ (start + stop) / 2 → (start + stop) / 2 ≤ t.stop →
      get_speaker_for_segment (some (pre ++ t :: post)) start stop = t.speaker) := by
  refine ⟨fun start stop => rfl, fun turns start stop h => ?_,
    fun pre t post start stop hpre h1 h2 => ?_⟩
  · rw [get_speaker_unfold, find?_speaker_none turns _ h]
  · rw [get_speaker_unfold, find?_speaker_found pre t post _ hpre h1 h2]

/-- Witness for `get_speaker_for_segment_spec`: the segment `(0, 2)` has
midpoint `1`, which lies exactly on the end boundary of the turn
`(0, 1, "A")`, and is attributed to that turn (inclusive boundary). -/
theorem get_speaker_for_segment_spec_witness :
    get_speaker_for_segment (some [⟨0, 1, "A"⟩]) 0 2 = "A" :=
  get_speaker_for_segment_spec.2.2 [] ⟨0, 1, "A"⟩ [] 0 2 (by simp)
    (by norm_num) (by norm_num)

/-! ### Allocator analysis (C2) -/

/-- Just the `placeholder_map`/`counter` part of the segment loop, as a fold
over the resolved speaker keys. -/
def allocLoop : List String → List (String × String) → ℕ → List (String × String) × ℕ
  | [], m, c => (m, c)
  | k :: ks, m, c => allocLoop ks (allocOne m c k).2.1 (allocOne m c k).2.2

/-- The speaker key resolved for each segment, in segment order. -/
def keysOf (diarization : Option (List Turn)) (segments : List Segment) : List String :=
  segments.map (fun seg => get_speaker_for_segment diarization seg.start seg.stop)

/-- Distinct keys in first-seen order, continuing from `seen`. -/
def firstSeenAux (seen : List String) : List String → List String
  | [] => seen
  | k :: ks => if k ∈ seen then firstSeenAux seen ks else firstSeenAux (seen ++ [k]) ks

/-- Distinct keys of `ks` in first-seen order. -/
def firstSeen (ks : List String) : List String := firstSeenAux [] ks

/-- The mapping that binds the `j`-th listed key (0-based) to placeholder
number `i + j`. -/
def buildMapFrom (i : ℕ) : List String → List (String × String)
  | [] => []
  | k :: ds => (k, placeholderStr i) :: buildMapFrom (i + 1) ds

theorem alookup_buildMapFrom_none :
    ∀ (ds : List String) (i : ℕ) (k : String),
      alookup k (buildMapFrom i ds) = none ↔ k ∉ ds := by
  intro ds
  induction ds with
  | nil => simp [buildMapFrom, alookup]
  | cons d ds' ih =>
    intro i k
    rw [buildMapFrom, alookup]
    by_cases hdk : d = k
    · subst hdk
      simp
    · rw [if_neg hdk, ih (i + 1) k]
      simp [List.mem_cons, Ne.symm hdk]

theorem alookup_buildMapFrom_mem (ds : List String) (i : ℕ) (k : String) (hk : k ∈ ds) :
    ∃ p, alookup k (buildMapFrom i ds) = some p := by
  cases h : alookup k (buildMapFrom i ds) with
  | some p => exact ⟨p, rfl⟩
  | none => exact absurd ((alookup_buildMapFrom_none ds i k).mp h) (fun h' => h' hk)

theorem buildMapFrom_append_one :
    ∀ (ds : List String) (i : ℕ) (k : String),
      buildMapFrom i (ds ++ [k]) = buildMapFrom i ds ++ [(k, placeholderStr (i + ds.length))] := by
  intro ds
  induction ds with
  | nil => simp [buildMapFrom]
  | cons d ds' ih =>
    intro i k
    rw [List.cons_append, buildMapFrom, ih (i + 1) k, buildMapFrom]
    simp only [List.cons_append, List.length_cons]
    have : i + 1 + ds'.length = i + (ds'.length + 1) := by omega
    rw [this]

theorem buildMapFrom_snd :
    ∀ (ds : List String) (i : ℕ),
      (buildMapFrom i ds).map Prod.snd = (List.range' i ds.length).map placeholderStr := by
  intro ds
  induction ds with
  | nil => simp [buildMapFrom]
  | cons d ds' ih =>
    intro i
    rw [buildMapFrom, List.length_cons]
    have hr : List.range' i (ds'.length + 1) = i :: List.range' (i + 1) ds'.length := by
      simp [List.range']
    rw [hr]
    simp only [List.map_cons]
    rw [ih (i + 1)]

theorem firstSeenAux_expand (ks : List String) :
    ∀ seen, ∃ extra, firstSeenAux seen ks = seen ++ extra := by
  induction ks with
  | nil => exact fun seen => ⟨[], by simp [firstSeenAux]⟩
  | cons k ks' ih =>
    intro seen
    rw [firstSeenAux]
    by_cases hk : k ∈ seen
    · rw [if_pos hk]
      exact ih seen
    · rw [if_neg hk]
      obtain ⟨extra, hex⟩ := ih (seen ++ [k])
      exact ⟨[k] ++ extra, by rw [hex, List.append_assoc]⟩

theorem alookup_append_some {α : Type} (m m' : List (String × α)) (k : String) (v : α)
    (h : alookup k m = some v) : alookup k (m ++ m') = some v := by
  induction m with
  | nil => simp [alookup] at h
  | cons e m₀ ih =>
    rw [List.cons_append, alookup]
    rw [alookup] at h
    by_cases he : e.1 = k
    · rw [if_pos he] at h ⊢
      exact h
    · rw [if_neg he] at h ⊢
      exact ih h

theorem allocLoop_general :
    ∀ (ks seen : List String),
      allocLoop ks (buildMapFrom 1 seen) (seen.length + 1) =
        (buildMapFrom 1 (firstSeenAux seen ks), (firstSeenAux seen ks).length + 1) := by
  intro ks
  induction ks with
  | nil => intro seen; rfl
  | cons k ks' ih =>
    intro seen
    have hstep : allocLoop (k :: ks') (buildMapFrom 1 seen) (seen.length + 1) =
        allocLoop ks' (allocOne (buildMapFrom 1 seen) (seen.length + 1) k).2.1
          (allocOne (buildMapFrom 1 seen) (seen.length + 1) k).2.2 := rfl
    have hfs : firstSeenAux seen (k :: ks') =
        if k ∈ seen then firstSeenAux seen ks' else firstSeenAux (seen ++ [k]) ks' := rfl
    rw [hstep, hfs]
    by_cases hk : k ∈ seen
    · obtain ⟨p, hp⟩ := alookup_buildMapFrom_mem seen 1 k hk
      rw [if_pos hk]
      simp only [allocOne, hp]
      exact ih seen
    · have hlk : alookup k (buildMapFrom 1 seen) = none :=
        (alookup_buildMapFrom_none seen 1 k).mpr hk
      rw [if_neg hk]
      simp only [allocOne, hlk]
      have hb : buildMapFrom 1 seen ++ [(k, placeholderStr (seen.length + 1))] =
          buildMapFrom 1 (seen ++ [k]) := by
        rw [buildMapFrom_append_one]
        have : 1 + seen.length = seen.length + 1 := by omega
        rw [this]
      rw [hb]
      have hlen : (seen ++ [k]).length = seen.length + 1 := by simp
      have := ih (seen ++ [k])
      rw [hlen] at this
      exact this

theorem allocLoop_base (ks : List String) :
    allocLoop ks [] 1 = (buildMapFrom 1 (firstSeen ks), (firstSeen ks).length + 1) :=
  allocLoop_general ks []

theorem allocLoop_append :
    ∀ (ks₁ ks₂ : List String) (m : List (String × String)) (c : ℕ),
      allocLoop (ks₁ ++ ks₂) m c =
        allocLoop ks₂ (allocLoop ks₁ m c).1 (allocLoop ks₁ m c).2 := by
  intro ks₁
  induction ks₁ with
  | nil => intro ks₂ m c; rfl
  | cons k ks' ih =>
    intro ks₂ m c
    rw [List.cons_append]
    exact ih ks₂ _ _

theorem alookup_allocLoop_mono :
    ∀ (ks : List String) (m : List (String × String)) (c : ℕ) (k v : String),
      alookup k m = some v → alookup k (allocLoop ks m c).1 = some v := by
  intro ks
  induction ks with
  | nil => intro m c k v h; exact h
  | cons k₀ ks' ih =>
    intro m c k v h
    show alookup k (allocLoop ks' (allocOne m c k₀).2.1 (allocOne m c k₀).2.2).1 = some v
    cases h₀ : alookup k₀ m with
    | some p =>
      simp only [allocOne, h₀]
      exact ih m c k v h
    | none =>
      simp only [allocOne, h₀]
      exact ih _ _ k v (alookup_append_some m _ k v h)

theorem build_vtt_loop_state (d : Option (List Turn)) :
    ∀ (segs : List Segment) (lines : List String) (m : List (String × String)) (c : ℕ),
      (build_vtt_loop d segs lines m c).2 = allocLoop (keysOf d segs) m c := by
  intro segs
  induction segs with
  | nil => intro lines m c; rfl
  | cons seg rest ih =>
    intro lines m c
    rw [build_vtt_loop]
    rw [ih]
    rfl

theorem alookup_firstSeen_head (k : String) (ks : List String) :
    alookup k (buildMapFrom 1 (firstSeen (k :: ks))) = some (placeholderStr 1) := by
  have h1 : firstSeen (k :: ks) = firstSeenAux [k] ks := by
    rw [firstSeen]
    show (if k ∈ ([] : List String) then firstSeenAux [] ks
      else firstSeenAux ([] ++ [k]) ks) = _
    rw [if_neg (List.not_mem_nil k)]
    rfl
  obtain ⟨extra, hex⟩ := firstSeenAux_expand ks [k]
  rw [h1, hex]
  show alookup k (buildMapFrom 1 (k :: extra)) = some (placeholderStr 1)
  rw [buildMapFrom, alookup, if_pos rfl]

/-- C2: after processing all segments the `placeholder_map` binds exactly the
distinct resolved speaker keys, in the order of first attribution, to the
placeholders numbered `1..k` with no gaps (`k` = number of distinct keys,
counter ends at `k+1`); the first segment's speaker is bound to
`SPEAKER_01`; an already-mapped key is returned as-is without touching the
map or counter; and no mapping entry changes once assigned (extending the
segment list preserves every existing binding). -/
theorem placeholder_map_spec :
    (∀ (d : Option (List Turn)) (segs : List Segment) (lines : List String),
      (build_vtt_loop d segs lines [] 1).2.1 = buildMapFrom 1 (firstSeen (keysOf d segs)) ∧
      (build_vtt_loop d segs lines [] 1).2.2 = (firstSeen (keysOf d segs)).length + 1 ∧
      (build_vtt_loop d segs lines [] 1).2.1.map Prod.snd =
        (List.range' 1 (firstSeen (keysOf d segs)).length).map placeholderStr) ∧
    placeholderStr 1 = "SPEAKER_01" ∧
    (∀ (d : Option (List Turn)) (seg : Segment) (segs' : List Segment) (lines : List String),
      alookup (get_speaker_for_segment d seg.start seg.stop)
        (build_vtt_loop d (seg :: segs') lines [] 1).2.1 = some (placeholderStr 1)) ∧
    (∀ (m : List (String × String)) (c : ℕ) (k p : String),
      alookup k m = some p → allocOne m c k = (p, m, c)) ∧
    (∀ (d : Option (List Turn)) (pre post : List Segment) (lines lines' : List String)
        (k v : String),
      alookup k (build_vtt_loop d pre lines [] 1).2.1 = some v →
      alookup k (build_vtt_loop d (pre ++ post) lines' [] 1).2.1 = some v) := by
  have hstate : ∀ (d : Option (List Turn)) (segs : List Segment) (lines : List String),
      (build_vtt_loop d segs lines [] 1).2.1 = buildMapFrom 1 (firstSeen (keysOf d segs)) ∧
      (build_vtt_loop d segs lines [] 1).2.2 = (firstSeen (keysOf d segs)).length + 1 := by
    intro d segs lines
    have h := build_vtt_loop_state d segs lines [] 1
    rw [allocLoop_base] at h
    exact ⟨congrArg Prod.fst h, congrArg Prod.snd h⟩
  refine ⟨fun d segs lines => ⟨(hstate d segs lines).1, (hstate d segs lines).2, ?_⟩,
    rfl, fun d seg segs' lines => ?_, fun m c k p h => ?_,
    fun d pre post lines lines' k v h => ?_⟩
  · rw [(hstate d segs lines).1, buildMapFrom_snd]
  · rw [(hstate d (seg :: segs') lines).1]
    exact alookup_firstSeen_head _ (keysOf d segs')
  · simp only [allocOne, h]
  · have h1 := congrArg Prod.fst (build_vtt_loop_state d pre lines [] 1)
    have h2 := congrArg Prod.fst (build_vtt_loop_state d (pre ++ post) lines' [] 1)
    rw [h1] at h
    have hk : keysOf d (pre ++ post) = keysOf d pre ++ keysOf d post := by
      simp [keysOf]
    rw [h2, hk, allocLoop_append]
    exact alookup_allocLoop_mono _ _ _ k v h

/-- Witness for `placeholder_map_spec`: with keys seen in the order
`A`, `B`, `A`, the third occurrence reuses the existing `SPEAKER_01`
binding without touching the map or the counter. -/
theorem placeholder_map_spec_witness :
    allocOne [("A", "SPEAKER_01"), ("B", "SPEAKER_02")] 3 "A"
      = ("SPEAKER_01", [("A", "SPEAKER_01"), ("B", "SPEAKER_02")], 3) :=
  placeholder_map_spec.2.2.2.1 _ 3 "A" "SPEAKER_01" (by decide)

/-! ### The emitted track (C1) -/

/-- Concatenation of a list of strings. -/
def strConcat : List String → String
  | [] => ""
  | x :: xs => x ++ strConcat xs

/-- The cue lines the segment loop appends after the header: per segment a
timestamp line, a bracket-tagged text line and a blank line. -/
def cue_lines (d : Option (List Turn)) :
    List Segment → List (String × String) → ℕ → List String
  | [], _, _ => []
  | seg :: rest, m, c =>
    (format_timestamp seg.start ++ " --> " ++ format_timestamp seg.stop) ::
    ("[" ++ (allocOne m c (get_speaker_for_segment d seg.start seg.stop)).1 ++ "] " ++
      pyStrip seg.text) ::
    "" :: cue_lines d rest (allocOne m c (get_speaker_for_segment d seg.start seg.stop)).2.1
      (allocOne m c (get_speaker_for_segment d seg.start seg.stop)).2.2

/-- The rendered track after the `WEBVTT\n` header, following the grammar of
§4.4 of the spec: for each segment a blank-line separator, the timestamp
line, the bracket-tagged text line and a trailing newline. -/
def vtt_body (d : Option (List Turn)) :
    List Segment → List (String × String) → ℕ → String
  | [], _, _ => ""
  | seg :: rest, m, c =>
    ("\n" ++ (format_timestamp seg.start ++ " --> " ++ format_timestamp seg.stop)) ++
    (("\n" ++ ("[" ++ (allocOne m c (get_speaker_for_segment d seg.start seg.stop)).1 ++ "] " ++
        pyStrip seg.text)) ++
      ("\n" ++ vtt_body d rest (allocOne m c (get_speaker_for_segment d seg.start seg.stop)).2.1
        (allocOne m c (get_speaker_for_segment d seg.start seg.stop)).2.2))

theorem build_vtt_loop_lines (d : Option (List Turn)) :
    ∀ (segs : List Segment) (lines : List String) (m : List (String × String)) (c : ℕ),
      (build_vtt_loop d segs lines m c).1 = lines ++ cue_lines d segs m c := by
  intro segs
  induction segs with
  | nil => intro lines m c; simp [build_vtt_loop, cue_lines]
  | cons seg rest ih =>
    intro lines m c
    rw [build_vtt_loop, ih, cue_lines]
    rw [List.append_assoc]
    rfl

theorem cue_lines_length (d : Option (List Turn)) :
    ∀ (segs : List Segment) (m : List (String × String)) (c : ℕ),
      (cue_lines d segs m c).length = 3 * segs.length := by
  intro segs
  induction segs with
  | nil => intro m c; rfl
  | cons seg rest ih =>
    intro m c
    rw [cue_lines]
    simp only [List.length_cons, ih, List.length_cons]
    omega

theorem pyJoin_foldl_acc (sep : String) :
    ∀ (xs : List String) (a b : String),
      xs.foldl (fun acc y => acc ++ sep ++ y) (a ++ b) =
        a ++ xs.foldl (fun acc y => acc ++ sep ++ y) b := by
  intro xs
  induction xs with
  | nil => intro a b; rfl
  | cons x xs' ih =>
    intro a b
    show xs'.foldl (fun acc y => acc ++ sep ++ y) (a ++ b ++ sep ++ x) = _
    have h1 : a ++ b ++ sep ++ x = a ++ (b ++ sep ++ x) := by
      rw [strAppend_assoc, strAppend_assoc, strAppend_assoc]
    rw [h1, ih a (b ++ sep ++ x)]
    rfl

theorem pyJoin_cons (sep x : String) (xs : List String) :
    pyJoin sep (x :: xs) = x ++ strConcat (xs.map (fun y => sep ++ y)) := by
  induction xs generalizing x with
  | nil =>
    show x = x ++ strConcat []
    rw [strConcat, strAppend_empty]
  | cons y ys ih =>
    show ys.foldl (fun acc z => acc ++ sep ++ z) (x ++ sep ++ y) = _
    have h1 : x ++ sep ++ y = x ++ (sep ++ y) := strAppend_assoc _ _ _
    have h2 := ih (x ++ (sep ++ y))
    have h3 : pyJoin sep ((x ++ (sep ++ y)) :: ys) =
        ys.foldl (fun acc z => acc ++ sep ++ z) (x ++ (sep ++ y)) := rfl
    rw [h1, ← h3, h2, List.map_cons, strConcat]
    simp [strAppend_assoc]

theorem strConcat_cue_lines (d : Option (List Turn)) :
    ∀ (segs : List Segment) (m : List (String × String)) (c : ℕ),
      strConcat ((cue_lines d segs m c).map (fun y => "\n" ++ y)) = vtt_body d segs m c := by
  intro segs
  induction segs with
  | nil => intro m c; rfl
  | cons seg rest ih =>
    intro m c
    rw [cue_lines, vtt_body]
    simp only [List.map_cons]
    rw [strConcat, strConcat, strConcat]
    rw [strAppend_empty, ih]

theorem pyJoin_webvtt (L : List String) :
    pyJoin "\n" ("WEBVTT" :: "" :: L) =
      "WEBVTT\n" ++ strConcat (L.map (fun y => "\n" ++ y)) := by
  rw [pyJoin_cons, List.map_cons, strConcat, strAppend_empty, ← strAppend_assoc]
  have h : ("WEBVTT" : String) ++ "\n" = "WEBVTT\n" := by decide
  rw [h]

/-- C1 (amended): the emitted track is the header line `WEBVTT`, a blank
line, then for each input segment in order a cue made of the timestamp line,
the `[placeholder] text` line (text stripped; an empty text still produces
its cue, as the line count shows) and a blank line, all joined by single
newlines — so the blank line after the final cue is not itself
newline-terminated.  For the single segment `(0, 2, "hello")` with no
diarization the track is
`"WEBVTT\n\n00:00:00.000 --> 00:00:02.000\n[SPEAKER_01] hello\n"` with a
single trailing newline. -/
theorem vtt_track_format :
    (∀ (d : Option (List Turn)) (segs : List Segment),
      index_vtt d segs = "WEBVTT\n" ++ vtt_body d segs [] 1 ∧
      (build_vtt_loop d segs ["WEBVTT", ""] [] 1).1.length = 2 + 3 * segs.length) ∧
    index_vtt none [⟨0, 2, "hello"⟩] =
      "WEBVTT\n\n00:00:00.000 --> 00:00:02.000\n[SPEAKER_01] hello\n" := by
  refine ⟨fun d segs => ⟨?_, ?_⟩, by decide⟩
  · rw [index_vtt, build_vtt_loop_lines]
    have h : (["WEBVTT", ""] : List String) ++ cue_lines d segs [] 1 =
        "WEBVTT" :: "" :: cue_lines d segs [] 1 := rfl
    rw [h, pyJoin_webvtt, strConcat_cue_lines]
  · rw [build_vtt_loop_lines]
    simp only [List.length_append, cue_lines_length]
    rfl

/-- C1 counterexample: the claim's Scenario A string ends in two newline
characters, but `"\n".join` leaves exactly one after the final blank line. -/
theorem vtt_track_trailing_newline_cex :
    index_vtt none [⟨0, 2, "hello"⟩] ≠
      "WEBVTT\n\n00:00:00.000 --> 00:00:02.000\n[SPEAKER_01] hello\n\n" := by decide

/-! ### Replace lemmas (C3, C6, C10) -/

theorem replaceAux_nil (pat repl : List Char) : ∀ f, replaceAux pat repl f [] = [] := by
  intro f
  cases f <;> rfl

theorem replaceAux_fuel (pat repl : List Char) :
    ∀ (n : ℕ) (s : List Char) (f g : ℕ), s.length ≤ n → s.length ≤ f → s.length ≤ g →
      replaceAux pat repl f s = replaceAux pat repl g s := by
  intro n
  induction n with
  | zero =>
    intro s f g hn _ _
    have hs : s = [] := List.eq_nil_of_length_eq_zero (by omega)
    subst hs
    rw [replaceAux_nil, replaceAux_nil]
  | succ n ih =>
    intro s f g hn hf hg
    cases s with
    | nil => rw [replaceAux_nil, replaceAux_nil]
    | cons c rest =>
      have hlen : (c :: rest).length = rest.length + 1 := rfl
      match f, g with
      | f' + 1, g' + 1 =>
        simp only [replaceAux]
        by_cases hcond : (startsWith pat (c :: rest) && !pat.isEmpty) = true
        · rw [if_pos hcond, if_pos hcond]
          have hpat : 1 ≤ pat.length := by
            have h2 := (Bool.and_eq_true _ _).mp hcond
            have h3 : pat.isEmpty = false := by
              cases hpe : pat.isEmpty
              · rfl
              · rw [hpe] at h2
                simp at h2
            cases pat with
            | nil => simp [List.isEmpty] at h3
            | cons a as => simp
          congr 1
          apply ih
          · rw [List.length_drop]
            simp only [List.length_cons] at hn ⊢
            omega
          · rw [List.length_drop]
            simp only [List.length_cons] at hf ⊢
            omega
          · rw [List.length_drop]
            simp only [List.length_cons] at hg ⊢
            omega
        · rw [if_neg hcond, if_neg hcond]
          congr 1
          apply ih
          · simp only [List.length_cons] at hn; omega
          · simp only [List.length_cons] at hf; omega
          · simp only [List.length_cons] at hg; omega

theorem replaceList_cons_pos (pat repl : List Char) (c : Char) (rest : List Char)
    (h : (startsWith pat (c :: rest) && !pat.isEmpty) = true) :
    replaceList pat repl (c :: rest) =
      repl ++ replaceList pat repl (List.drop pat.length (c :: rest)) := by
  have hpat : 1 ≤ pat.length := by
    have h2 := (Bool.and_eq_true _ _).mp h
    have h3 : pat.isEmpty = false := by
      cases hpe : pat.isEmpty
      · rfl
      · rw [hpe] at h2
        simp at h2
    cases pat with
    | nil => simp [List.isEmpty] at h3
    | cons a as => simp
  rw [replaceList, List.length_cons]
  simp only [replaceAux]
  rw [if_pos h]
  congr 1
  rw [replaceList]
  apply replaceAux_fuel pat repl (List.drop pat.length (c :: rest)).length
  · exact le_rfl
  · rw [List.length_drop]
    simp only [List.length_cons]
    omega
  · exact le_rfl

theorem replaceList_cons_neg (pat repl : List Char) (c : Char) (rest : List Char)
    (h : (startsWith pat (c :: rest) && !pat.isEmpty) = false) :
    replaceList pat repl (c :: rest) = c :: replaceList pat repl rest := by
  rw [replaceList, List.length_cons]
  simp only [replaceAux]
  rw [if_neg (by rw [h]; exact Bool.false_ne_true)]
  rfl

theorem startsWith_iff : ∀ (p s : List Char), startsWith p s = true ↔ ∃ t, s = p ++ t := by
  intro p
  induction p with
  | nil =>
    intro s
    simp [startsWith]
  | cons a as ih =>
    intro s
    cases s with
    | nil =>
      simp [startsWith]
    | cons b bs =>
      rw [startsWith]
      simp only [Bool.and_eq_true, beq_iff_eq, ih, List.cons_append, List.cons_eq_cons]
      constructor
      · rintro ⟨rfl, t, rfl⟩
        exact ⟨t, rfl, rfl⟩
      · rintro ⟨t, rfl, rfl⟩
        exact ⟨rfl, t, rfl⟩

theorem replaceList_self (pat : List Char) (hpat : pat ≠ []) :
    ∀ (n : ℕ) (s : List Char), s.length ≤ n → replaceList pat pat s = s := by
  intro n
  induction n with
  | zero =>
    intro s h
    have hs : s = [] := List.eq_nil_of_length_eq_zero (by omega)
    subst hs
    rfl
  | succ n ih =>
    intro s hs
    cases s with
    | nil => rfl
    | cons c rest =>
      by_cases hsw : startsWith pat (c :: rest) = true
      · have hie : pat.isEmpty = false := by
          cases pat with
          | nil => exact absurd rfl hpat
          | cons a as => rfl
        have hcond : (startsWith pat (c :: rest) && !pat.isEmpty) = true := by
          rw [hsw, hie]
          rfl
        rw [replaceList_cons_pos pat pat c rest hcond]
        obtain ⟨t, ht⟩ := (startsWith_iff pat (c :: rest)).mp hsw
        have hpl : 1 ≤ pat.length := by
          cases pat with
          | nil => exact absurd rfl hpat
          | cons a as => simp
        have htn : t.length ≤ n := by
          have := congrArg List.length ht
          simp only [List.length_cons, List.length_append] at this
          simp only [List.length_cons] at hs
          omega
        rw [ht, List.drop_left, ih t htn]
      · have hcond : (startsWith pat (c :: rest) && !pat.isEmpty) = false := by
          have : startsWith pat (c :: rest) = false := by
            cases h : startsWith pat (c :: rest)
            · rfl
            · exact absurd h hsw
          rw [this]
          rfl
        rw [replaceList_cons_neg pat pat c rest hcond]
        have : rest.length ≤ n := by
          simp only [List.length_cons] at hs
          omega
        rw [ih rest this]

theorem strMk_data (s : String) : String.mk s.data = s := rfl

theorem strReplace_self (s pat : String) (h : pat.data ≠ []) : strReplace s pat pat = s := by
  rw [strReplace, replaceList_self pat.data h s.data.length s.data le_rfl, strMk_data]

theorem replaceList_of_not_occurs (pat repl : List Char) :
    ∀ s, occursList pat s = false → replaceList pat repl s = s := by
  intro s
  induction s with
  | nil => intro h; rfl
  | cons c rest ih =>
    intro h
    rw [occursList, Bool.or_eq_false_iff] at h
    have hcond : (startsWith pat (c :: rest) && !pat.isEmpty) = false := by
      rw [h.1, Bool.false_and]
    rw [replaceList_cons_neg pat repl c rest hcond, ih h.2]

theorem strReplace_of_not_occursIn (s pat repl : String) (h : occursIn pat s = false) :
    strReplace s pat repl = s := by
  rw [strReplace, replaceList_of_not_occurs pat.data repl.data s.data h, strMk_data]

theorem apply_mapping_cons (t : String) (pn : String × String) (m : List (String × String)) :
    apply_mapping t (pn :: m) =
      apply_mapping (strReplace t ("[" ++ pn.1 ++ "]") ("[" ++ pn.2 ++ "]")) m := rfl

theorem apply_mapping_of_not_occurs :
    ∀ (m : List (String × String)) (t : String),
      (∀ pn ∈ m, occursIn ("[" ++ pn.1 ++ "]") t = false) → apply_mapping t m = t := by
  intro m
  induction m with
  | nil => intro t _; rfl
  | cons pn m' ih =>
    intro t h
    rw [apply_mapping_cons,
      strReplace_of_not_occursIn _ _ _ (h pn (List.mem_cons_self pn m')),
      ih t (fun q hq => h q (List.mem_cons_of_mem _ hq))]

/-- C3 (amended): a rename request on a stored job replaces, for each
submitted `(placeholder, newName)` pair **in the order the pairs appear in
the submitted form** (Python dict insertion order, not placeholder-numeric
order), every occurrence of the bracketed token `[placeholder]` with the
bracketed **stripped** new name; a blank or whitespace-only `newName` is
mapped to the placeholder itself, and replacing a token by itself is no
change; renaming `SPEAKER_01` to `Alice` with `SPEAKER_02` left blank turns
every `[SPEAKER_01]` into `[Alice]` and leaves `[SPEAKER_02]` unchanged. -/
theorem update_speakers_spec :
    (∀ (store : List (String × Job)) (uid : String) (job : Job)
        (form : List (String × String)),
      alookup uid store = some job →
      update_speakers store uid form = .ok (store.map (fun e =>
        if e.1 = uid then (e.1, { e.2 with vtt := apply_mapping job.vtt (new_mapping form) })
        else e))) ∧
    (∀ (t k : String), strReplace t ("[" ++ k ++ "]") ("[" ++ k ++ "]") = t) ∧
    apply_mapping "WEBVTT\n\n[SPEAKER_01] a\n\n[SPEAKER_02] b\n"
        (new_mapping [("SPEAKER_01", "Alice"), ("SPEAKER_02", "")]) =
      "WEBVTT\n\n[Alice] a\n\n[SPEAKER_02] b\n" := by
  refine ⟨fun store uid job form h => ?_, fun t k => ?_, by decide⟩
  · simp only [update_speakers, h]
  · apply strReplace_self
    rw [strData_append, strData_append]
    simp

/-- Witness for `update_speakers_spec` on a concrete one-job store. -/
theorem update_speakers_spec_witness :
    update_speakers [("id1", ⟨"[SPEAKER_01] hi", "t", "v", [("Unknown", "SPEAKER_01")]⟩)]
        "id1" [("SPEAKER_01", "Alice")] =
      .ok [("id1", ⟨"[Alice] hi", "t", "v", [("Unknown", "SPEAKER_01")]⟩)] :=
  (update_speakers_spec.1 _ "id1" ⟨"[SPEAKER_01] hi", "t", "v", [("Unknown", "SPEAKER_01")]⟩
    [("SPEAKER_01", "Alice")] (by decide)).trans (by decide)

/-- C3 counterexample: the code applies the pairs in form order, not in
placeholder-numeric order, and it strips the submitted new name.  With form
pairs `(SPEAKER_02 ↦ X)` then `(SPEAKER_01 ↦ SPEAKER_02)` the code turns
`[SPEAKER_01]` into `[SPEAKER_02]`, while numeric-order application yields
`[X]`; and the submitted name `" Alice "` is stored as `[Alice]`, not
`[ Alice ]`. -/
theorem update_speakers_order_cex :
    update_speakers [("id1", ⟨"[SPEAKER_01]", "t", "v", [("Unknown", "SPEAKER_01")]⟩)]
        "id1" [("SPEAKER_02", "X"), ("SPEAKER_01", "SPEAKER_02")] =
      .ok [("id1", ⟨"[SPEAKER_02]", "t", "v", [("Unknown", "SPEAKER_01")]⟩)] ∧
    apply_mapping_numeric "[SPEAKER_01]"
        (new_mapping [("SPEAKER_02", "X"), ("SPEAKER_01", "SPEAKER_02")]) = "[X]" ∧
    ("[SPEAKER_02]" : String) ≠ "[X]" ∧
    apply_mapping "[SPEAKER_01]" (new_mapping [("SPEAKER_01", " Alice ")]) = "[Alice]" ∧
    ("[Alice]" : String) ≠ "[ Alice ]" := by
  refine ⟨by decide, by decide, by decide, by decide, by decide⟩

/-- C6 (amended): re-applying the same rename mapping is the identity — so
applying it twice equals applying it once — provided no submitted
placeholder's bracketed token still occurs in the once-renamed track (which
holds whenever the new names do not re-introduce placeholder tokens).  The
unconditional claim is refuted by `rename_not_idempotent_cex`. -/
theorem rename_idempotent_cond (form : List (String × String)) (t : String)
    (h : ∀ pn ∈ new_mapping form,
      occursIn ("[" ++ pn.1 ++ "]") (apply_mapping t (new_mapping form)) = false) :
    apply_mapping (apply_mapping t (new_mapping form)) (new_mapping form) =
      apply_mapping t (new_mapping form) :=
  apply_mapping_of_not_occurs (new_mapping form) _ h

/-- Witness for `rename_idempotent_cond` on a concrete track and form. -/
theorem rename_idempotent_cond_witness :
    apply_mapping (apply_mapping "[SPEAKER_01] hi" (new_mapping [("SPEAKER_01", "Alice")]))
        (new_mapping [("SPEAKER_01", "Alice")]) =
      apply_mapping "[SPEAKER_01] hi" (new_mapping [("SPEAKER_01", "Alice")]) :=
  rename_idempotent_cond [("SPEAKER_01", "Alice")] "[SPEAKER_01] hi" (by decide)

/-- C6 counterexample: with the non-empty mapping
`{SPEAKER_02 ↦ X, SPEAKER_01 ↦ SPEAKER_02}` on the track `[SPEAKER_01]`,
one application gives `[SPEAKER_02]` but a second application turns that
into `[X]`: applying twice differs from applying once. -/
theorem rename_not_idempotent_cex :
    apply_mapping
        (apply_mapping "[SPEAKER_01]"
          (new_mapping [("SPEAKER_02", "X"), ("SPEAKER_01", "SPEAKER_02")]))
        (new_mapping [("SPEAKER_02", "X"), ("SPEAKER_01", "SPEAKER_02")]) ≠
      apply_mapping "[SPEAKER_01]"
        (new_mapping [("SPEAKER_02", "X"), ("SPEAKER_01", "SPEAKER_02")]) := by decide

/-- C10: the rename route applies a bracketed-token substitution for every
submitted form pair without validating the key against the job's known
placeholders: even under the explicit assumption that `k` is none of the
job's placeholders, every `[k]` in the track is still rewritten to the
stripped `[v]`. -/
theorem update_speakers_no_validation (store : List (String × Job)) (uid : String)
    (job : Job) (k v : String) (hjob : alookup uid store = some job)
    (_hk : ∀ pr ∈ job.placeholder_map, pr.2 ≠ k) (hv : pyStrip v ≠ "") :
    update_speakers store uid [(k, v)] = .ok (store.map (fun e =>
      if e.1 = uid then
        (e.1, { e.2 with vtt := strReplace job.vtt ("[" ++ k ++ "]") ("[" ++ pyStrip v ++ "]") })
      else e)) := by
  have hnm : new_mapping [(k, v)] = [(k, pyStrip v)] := by
    simp [new_mapping, hv]
  simp only [update_speakers, hjob, hnm]
  rfl

/-- Witness for `update_speakers_no_validation`: `Alice` is not a placeholder
of the stored job (its only placeholder is `SPEAKER_01`), yet the pair
`(Alice ↦ Bob)` still rewrites `[Alice]` in the track. -/
theorem update_speakers_no_validation_witness :
    update_speakers [("id1", ⟨"[Alice] hi", "t", "v", [("Unknown", "SPEAKER_01")]⟩)]
        "id1" [("Alice", "Bob")] =
      .ok [("id1", ⟨"[Bob] hi", "t", "v", [("Unknown", "SPEAKER_01")]⟩)] :=
  (update_speakers_no_validation _ "id1" ⟨"[Alice] hi", "t", "v", [("Unknown", "SPEAKER_01")]⟩
    "Alice" "Bob" (by decide) (by decide) (by decide)).trans (by decide)

/-- C7 (amended): for an unknown job id both download and rename return the
not-found result (never a crash); for a stored job a download whose `type`
is not one of the per-job dict keys `vtt`, `transcript`, `video_path`,
`placeholder_map` returns not-found — but `video_path` (also not `track` or
`transcript`) is served as a `file.txt` download of the stored path, and
`placeholder_map` raises a server error, so not every kind other than
track/transcript gives a not-found error. -/
theorem not_found_spec :
    (∀ (store : List (String × Job)) (uid : String) (ft : Option String),
      alookup uid store = none → download store uid ft = .notFound) ∧
    (∀ (store : List (String × Job)) (uid : String) (form : List (String × String)),
      alookup uid store = none → update_speakers store uid form = .notFound) ∧
    (∀ (store : List (String × Job)) (uid : String) (job : Job) (ft : Option String),
      alookup uid store = some job →
      ft ≠ some "vtt" → ft ≠ some "transcript" → ft ≠ some "video_path" →
      ft ≠ some "placeholder_map" → download store uid ft = .notFound) ∧
    (∀ (store : List (String × Job)) (uid : String) (job : Job),
      alookup uid store = some job →
      download store uid (some "video_path") = .file "file.txt" "text/plain" job.video_path ∧
      download store uid (some "placeholder_map") = .serverError) := by
  refine ⟨fun store uid ft h => ?_, fun store uid form h => ?_,
    fun store uid job ft h h1 h2 h3 h4 => ?_, fun store uid job h => ⟨?_, ?_⟩⟩
  · simp only [download, h]
  · simp only [update_speakers, h]
  · simp only [download, h]
    rw [if_neg h1, if_neg h2, if_neg h3, if_neg h4]
  · simp only [download, h]
    rw [if_neg (by decide), if_neg (by decide)]
    simp
  · simp only [download, h]
    rw [if_neg (by decide), if_neg (by decide), if_neg (by decide)]
    simp

/-- Witness for `not_found_spec`: a stored job with an unrecognised download
kind gives not-found. -/
theorem not_found_spec_witness :
    download [("id1", ⟨"W", "t", "v", []⟩)] "id1" (some "nope") = .notFound :=
  not_found_spec.2.2.1 [("id1", ⟨"W", "t", "v", []⟩)] "id1" ⟨"W", "t", "v", []⟩
    (some "nope") (by decide) (by decide) (by decide) (by decide) (by decide)

/-- C7 counterexample: for a stored job, the download kind `video_path` is
neither `track`/`vtt` nor `transcript`, yet the route does not return
not-found — it serves the stored filesystem path as a text file. -/
theorem download_kind_cex :
    download [("id1", ⟨"W", "t", "/tmp/v.mp4", []⟩)] "id1" (some "video_path") =
      .file "file.txt" "text/plain" "/tmp/v.mp4" ∧
    download [("id1", ⟨"W", "t", "/tmp/v.mp4", []⟩)] "id1" (some "video_path") ≠
      .notFound := ⟨by decide, by decide⟩

/-- C9 (amended): the Hugging Face token is read and checked inside the
upload request handler, after the file has been accepted and transcoded:
with a valid file and successful ffmpeg run, a missing (or empty) token
makes that individual request raise `ValueError("Hugging Face token not
found!")` — an uncaught per-request failure, not a startup check — while
any non-empty token proceeds to build and store the job. -/
theorem token_check_spec :
    (∀ (store : List (String × Job)) (d : Option (List Turn)) (transcript : String)
        (segs : List Segment) (uid vp : String) (token : Option String),
      token = none ∨ token = some "" →
      index_post store true false true token d transcript segs uid vp =
        .raised "Hugging Face token not found!") ∧
    (∀ (store : List (String × Job)) (d : Option (List Turn)) (transcript : String)
        (segs : List Segment) (uid vp : String) (s : String),
      s ≠ "" →
      index_post store true false true (some s) d transcript segs uid vp =
        .editPage uid
          (store ++ [(uid, ⟨pyJoin "\n" (build_vtt_loop d segs ["WEBVTT", ""] [] 1).1,
            transcript, vp, (build_vtt_loop d segs ["WEBVTT", ""] [] 1).2.1⟩)])
          (sortedPlaceholders (build_vtt_loop d segs ["WEBVTT", ""] [] 1).2.1)) := by
  constructor
  · rintro store d transcript segs uid vp token (rfl | rfl) <;> rfl
  · intro store d transcript segs uid vp s hs
    simp only [index_post]
    rw [if_neg (by decide), if_neg (by decide), if_neg (by decide),
      if_neg (show ¬ ((some s).getD "" = "") from hs)]

/-- Witness for `token_check_spec`: an upload request with an empty token
string raises after transcoding. -/
theorem token_check_spec_witness :
    index_post [] true false true (some "") none "t" [] "u" "v" =
      .raised "Hugging Face token not found!" :=
  token_check_spec.1 [] none "t" [] "u" "v" (some "") (Or.inr rfl)

/-- C9 counterexample: a concrete upload request that was accepted and
transcoded (`hasFilePart`, non-empty filename, ffmpeg succeeded) still fails
— with the uncaught `ValueError` — because the Hugging Face token is absent;
the check is per-request, not a fatal startup condition. -/
theorem token_check_cex :
    index_post [] true false true none none "t" [] "u" "v" =
      .raised "Hugging Face token not found!" := by decide

/-! ### Placeholder token shape (C8) -/

/-- `p` occurs contiguously inside `s`. -/
def subtok (p s : List Char) : Prop := ∃ u v, s = u ++ p ++ v

theorem bracketTok_eq (i : ℕ) :
    ("[" ++ placeholderStr i ++ "]").data =
      '[' :: (("SPEAKER_".data ++ padZero 2 (natStr i)) ++ [']']) := by
  rw [strData_append, strData_append, placeholderStr, strData_append]
  rfl

theorem mem_body_brackets (i : ℕ) (c : Char)
    (hc : c ∈ "SPEAKER_".data ++ padZero 2 (natStr i)) : c ≠ '[' ∧ c ≠ ']' := by
  rw [List.mem_append] at hc
  rcases hc with hc | hc
  · constructor <;> (rintro rfl; revert hc; decide)
  · have hd : c.isDigit = true := by
      rcases padZero_mem 2 (natStr i) c hc with rfl | hmem
      · decide
      · exact natStr_digits i c hmem
    constructor <;> (rintro rfl; revert hd; decide)

theorem placeholderStr_inj (i j : ℕ) (h : placeholderStr i = placeholderStr j) : i = j := by
  have hd := congrArg String.data h
  rw [placeholderStr, placeholderStr, strData_append, strData_append] at hd
  exact padZero_natStr_inj 2 i j (List.append_cancel_left hd)

theorem append_singleton_cancel :
    ∀ (X Y v : List Char), ']' ∉ X → ']' ∉ Y →
      Y ++ [']'] = X ++ ']' :: v → Y = X ∧ v = [] := by
  intro X
  induction X with
  | nil =>
    intro Y v _ hY h
    cases Y with
    | nil =>
      rw [List.nil_append, List.nil_append] at h
      injection h with _ h2
      exact ⟨rfl, h2.symm⟩
    | cons y Y' =>
      rw [List.cons_append, List.nil_append] at h
      injection h with h1 _
      exact absurd (h1 ▸ List.mem_cons_self y Y') hY
  | cons x X' ih =>
    intro Y v hX hY h
    cases Y with
    | nil =>
      rw [List.nil_append, List.cons_append] at h
      injection h with _ h2
      have hlen := congrArg List.length h2
      simp only [List.length_nil, List.length_append, List.length_cons] at hlen
      omega
    | cons y Y' =>
      rw [List.cons_append, List.cons_append] at h
      injection h with h1 h2
      have hX' : ']' ∉ X' := fun hm => hX (List.mem_cons_of_mem x hm)
      have hY' : ']' ∉ Y' := fun hm => hY (List.mem_cons_of_mem y hm)
      obtain ⟨hYX, hv⟩ := ih Y' v hX' hY' h2
      exact ⟨by rw [h1, hYX], hv⟩

theorem cons_bracket_prefix (YY u w : List Char) (hY : '[' ∉ YY)
    (h : '[' :: YY = u ++ '[' :: w) : u = [] := by
  cases u with
  | nil => rfl
  | cons c u' =>
    rw [List.cons_append] at h
    injection h with h1 h2
    exact absurd (by rw [h2]; simp : '[' ∈ YY) hY

theorem bracket_token_eq_of_subtok (X Y : List Char)
    (hXr : ']' ∉ X) (hYl : '[' ∉ Y) (hYr : ']' ∉ Y)
    (h : subtok ('[' :: (X ++ [']'])) ('[' :: (Y ++ [']']))) : Y = X := by
  obtain ⟨u, v, huv⟩ := h
  have huv' : '[' :: (Y ++ [']']) = u ++ '[' :: (X ++ (']' :: v)) := by
    rw [huv]
    simp [List.append_assoc]
  have hYY : '[' ∉ Y ++ [']'] := by
    rw [List.mem_append]
    rintro (hm | hm)
    · exact hYl hm
    · exact absurd (List.mem_singleton.mp hm) (by decide)
  have hu : u = [] := cons_bracket_prefix (Y ++ [']']) u (X ++ (']' :: v)) hYY huv'
  subst hu
  rw [List.nil_append] at huv'
  injection huv' with _ h2
  exact (append_singleton_cancel X Y v hXr hYr h2).1

theorem tok_not_subtok (i j : ℕ) (hij : i ≠ j) :
    ¬ subtok ("[" ++ placeholderStr i ++ "]").data ("[" ++ placeholderStr j ++ "]").data := by
  intro h
  rw [bracketTok_eq, bracketTok_eq] at h
  have hXr : ']' ∉ "SPEAKER_".data ++ padZero 2 (natStr i) :=
    fun hm => (mem_body_brackets i ']' hm).2 rfl
  have hYl : '[' ∉ "SPEAKER_".data ++ padZero 2 (natStr j) :=
    fun hm => (mem_body_brackets j '[' hm).1 rfl
  have hYr : ']' ∉ "SPEAKER_".data ++ padZero 2 (natStr j) :=
    fun hm => (mem_body_brackets j ']' hm).2 rfl
  have hbody := bracket_token_eq_of_subtok _ _ hXr hYl hYr h
  exact hij (padZero_natStr_inj 2 j i (List.append_cancel_left hbody)).symm

theorem alookup_buildMapFrom_some :
    ∀ (ds : List String) (i : ℕ) (k v : String),
      alookup k (buildMapFrom i ds) = some v →
      ∃ j, j < ds.length ∧ v = placeholderStr (i + j) := by
  intro ds
  induction ds with
  | nil =>
    intro i k v h
    simp [buildMapFrom, alookup] at h
  | cons d ds' ih =>
    intro i k v h
    rw [buildMapFrom, alookup] at h
    by_cases hdk : d = k
    · rw [if_pos hdk] at h
      refine ⟨0, by simp, ?_⟩
      rw [Nat.add_zero]
      exact (Option.some.injEq _ _ ▸ h).symm
    · rw [if_neg hdk] at h
      obtain ⟨j, hj, hv⟩ := ih (i + 1) k v h
      refine ⟨j + 1, by simp; omega, ?_⟩
      rw [hv]
      congr 1
      omega

/-- C8 (amended): every placeholder the allocator assigns is
`SPEAKER_` followed by the counter value zero-padded to **at least** two
digits (exactly two until the hundredth distinct speaker, three digits from
`SPEAKER_100` on — see `placeholder_width_cex`); the digits are all decimal
digits, and for any two distinct counter values neither bracketed token
`[SPEAKER_NN]` is a substring of the other. -/
theorem placeholder_token_spec :
    (∀ (ks : List String) (k v : String),
      alookup k (allocLoop ks [] 1).1 = some v →
      ∃ i, 1 ≤ i ∧ i ≤ (firstSeen ks).length ∧ v = placeholderStr i) ∧
    (∀ i : ℕ, 1 ≤ i →
      2 ≤ (padZero 2 (natStr i)).length ∧
      ∀ c ∈ padZero 2 (natStr i), c.isDigit = true) ∧
    (∀ i j : ℕ, 1 ≤ i → 1 ≤ j → i ≠ j →
      ¬ subtok ("[" ++ placeholderStr i ++ "]").data ("[" ++ placeholderStr j ++ "]").data) := by
  refine ⟨fun ks k v h => ?_, fun i _ => ⟨?_, fun c hc => ?_⟩,
    fun i j _ _ hij => tok_not_subtok i j hij⟩
  · rw [congrArg Prod.fst (allocLoop_base ks)] at h
    obtain ⟨j, hj, hv⟩ := alookup_buildMapFrom_some (firstSeen ks) 1 k v h
    exact ⟨1 + j, by omega, by omega, hv⟩
  · rw [padZero_length]
    omega
  · rcases padZero_mem 2 (natStr i) c hc with rfl | hmem
    · decide
    · exact natStr_digits i c hmem

/-- Witness for `placeholder_token_spec`: `[SPEAKER_01]` is not a substring
of `[SPEAKER_02]`. -/
theorem placeholder_token_spec_witness :
    ¬ subtok ("[" ++ placeholderStr 1 ++ "]").data ("[" ++ placeholderStr 2 ++ "]").data :=
  placeholder_token_spec.2.2 1 2 (by decide) (by decide) (by decide)

theorem firstSeenAux_of_disjoint :
    ∀ (ks seen : List String), (∀ k ∈ ks, k ∉ seen) → ks.Nodup →
      firstSeenAux seen ks = seen ++ ks := by
  intro ks
  induction ks with
  | nil => intro seen _ _; simp [firstSeenAux]
  | cons k ks' ih =>
    intro seen hdisj hnd
    rw [firstSeenAux, if_neg (hdisj k (List.mem_cons_self k ks'))]
    have hnd' := (List.nodup_cons.mp hnd)
    have hdisj' : ∀ k' ∈ ks', k' ∉ seen ++ [k] := by
      intro k' hk'
      rw [List.mem_append, List.mem_singleton]
      rintro (hm | rfl)
      · exact hdisj k' (List.mem_cons_of_mem k hk') hm
      · exact hnd'.1 hk'
    rw [ih (seen ++ [k]) hdisj' hnd'.2, List.append_assoc]
    rfl

theorem firstSeen_of_nodup (ks : List String) (h : ks.Nodup) : firstSeen ks = ks := by
  rw [firstSeen, firstSeenAux_of_disjoint ks [] (fun k _ => List.not_mem_nil k) h,
    List.nil_append]

theorem alookup_buildMapFrom_get :
    ∀ (ds : List String) (i j : ℕ) (hj : j < ds.length), ds.Nodup →
      alookup (ds.get ⟨j, hj⟩) (buildMapFrom i ds) = some (placeholderStr (i + j)) := by
  intro ds
  induction ds with
  | nil => intro i j hj _; simp at hj
  | cons d ds' ih =>
    intro i j hj hnd
    have hnd' := List.nodup_cons.mp hnd
    cases j with
    | zero =>
      rw [buildMapFrom, alookup]
      simp [List.get]
    | succ j' =>
      rw [buildMapFrom, alookup]
      have hget : (d :: ds').get ⟨j' + 1, hj⟩ = ds'.get ⟨j', by simpa using hj⟩ := rfl
      rw [hget]
      have hne : ¬ d = ds'.get ⟨j', by simpa using hj⟩ := by
        intro he
        exact hnd'.1 (he ▸ List.get_mem ds' j' _)
      have harith : i + 1 + j' = i + (j' + 1) := by omega
      rw [if_neg hne, ih (i + 1) j' (by simpa using hj) hnd'.2, harith]

/-- The 100 distinct speaker keys used by `placeholder_width_cex`. -/
def cexKeys : List String := (List.range 100).map (fun n => String.mk (List.replicate n 'a'))

/-- C8 counterexample: with 100 distinct speaker keys the allocator assigns
the hundredth key the placeholder `SPEAKER_100`, whose numeric part has
three digits, not exactly two. -/
theorem placeholder_width_cex :
    alookup (String.mk (List.replicate 99 'a')) (allocLoop cexKeys [] 1).1 =
      some "SPEAKER_100" ∧
    ("SPEAKER_100" : String) = placeholderStr 100 ∧
    (padZero 2 (natStr 100)).length = 3 := by
  have hinj : Function.Injective (fun n => String.mk (List.replicate n 'a')) := by
    intro a b h
    have := congrArg (fun s => s.data.length) h
    simpa using this
  have hnodup : cexKeys.Nodup := (List.nodup_range 100).map hinj
  have hfs : firstSeen cexKeys = cexKeys := firstSeen_of_nodup cexKeys hnodup
  have hlen : cexKeys.length = 100 := by simp [cexKeys]
  have h99 : (99 : ℕ) < cexKeys.length := by omega
  have hget : cexKeys.get ⟨99, h99⟩ = String.mk (List.replicate 99 'a') := by
    simp [cexKeys]
  refine ⟨?_, by decide, by decide⟩
  rw [congrArg Prod.fst (allocLoop_base cexKeys), hfs, ← hget,
    alookup_buildMapFrom_get cexKeys 1 99 h99 hnodup]
  decide
